import Mathlib

/-!
Verification of the diffusion-guided fitness-weighted sampler in
`NAS-Bench-201/utils/predictor.py` (functions `ddim_step` and `ddpm_sigma`,
classes `BayesianEstimator` and `BayesianGenerator`).

Torch tensors of shape m×d are embedded as lists of rows of reals.  Python
floats are embedded as real numbers; `x ** 0.5` on a nonnegative float is
`Real.sqrt`.  The standard-normal tensor drawn by `torch.randn_like(x0)`
is passed as an explicit argument `ε` (it always has the shape of `x0`).
Fallible paths (the `raise` in the constructor, the TypeError produced by
multiplying a float with `None`) are embedded with `Except`/`Option`.
-/

namespace EDNAG

/-- `IsShape a m d` says that the tensor `a` has shape m×d. -/
def IsShape (a : List (List ℝ)) (m d : ℕ) : Prop :=
  a.length = m ∧ ∀ r ∈ a, r.length = d

instance (a : List (List ℝ)) (m d : ℕ) : Decidable (IsShape a m d) :=
  inferInstanceAs (Decidable (a.length = m ∧ ∀ r ∈ a, r.length = d))

noncomputable section

/-- Elementwise addition of two rows (torch broadcasting on equal shapes). -/
def vAdd (a b : List ℝ) : List ℝ := List.zipWith (fun u v => u + v) a b

/-- Elementwise subtraction of two rows. -/
def vSub (a b : List ℝ) : List ℝ := List.zipWith (fun u v => u - v) a b

/-- Elementwise addition of two tensors. -/
def matAdd (a b : List (List ℝ)) : List (List ℝ) := List.zipWith vAdd a b

/-- Elementwise subtraction of two tensors. -/
def matSub (a b : List (List ℝ)) : List (List ℝ) := List.zipWith vSub a b

/-- Scalar times tensor, `c * a` in torch. -/
def smul (c : ℝ) (a : List (List ℝ)) : List (List ℝ) :=
  a.map (List.map (fun v => c * v))

/-- Tensor divided by scalar, `a / c` in torch. -/
def sdiv (a : List (List ℝ)) (c : ℝ) : List (List ℝ) :=
  a.map (List.map (fun v => v / c))

/-- Three-way elementwise combination of rows (a proof device used to
reason about the composed tensor expressions; not part of the source). -/
def zip3 (f : ℝ → ℝ → ℝ → ℝ) : List ℝ → List ℝ → List ℝ → List ℝ
  | [], _, _ => []
  | _ :: _, [], _ => []
  | _ :: _, _ :: _, [] => []
  | a :: r, b :: s, c :: t => f a b c :: zip3 f r s t

/-- Three-way elementwise combination of tensors. -/
def mzip3 (f : ℝ → ℝ → ℝ → ℝ) :
    List (List ℝ) → List (List ℝ) → List (List ℝ) → List (List ℝ)
  | [], _, _ => []
  | _ :: _, [], _ => []
  | _ :: _, _ :: _, [] => []
  | r :: rs, s :: ss, t :: ts => zip3 f r s t :: mzip3 f rs ss ts

/-- `torch.sum(·, dim=0)`: sum of the rows of a tensor. -/
def msum0 : List (List ℝ) → List ℝ
  | [] => []
  | [r] => r
  | r :: rs => vAdd r (msum0 rs)

/-- `ddpm_sigma(alphat, alphatp)` of the source: the default DDPM sigma
`((1 - alphatp) / (1 - alphat) * (1 - alphat / alphatp)) ** 0.5`. -/
def ddpm_sigma (alphat alphatp : ℝ) : ℝ :=
  Real.sqrt ((1 - alphatp) / (1 - alphat) * (1 - alphat / alphatp))

/-- `ddim_step(xt, x0, alphas, noise)` of the source.  The very first use of
`noise` is the multiplication `ddpm_sigma(alphat, alphatp) * noise`; when the
caller leaves `noise` at its default `None`, Python raises a TypeError at that
line, which we embed as `Except.error`.  The source line `if sigma is None:
sigma = ddpm_sigma(alphat, alphatp)` is dead code — when `noise` is `None` the
multiplication has already raised, and otherwise `sigma` is a float — so it
has no branch here. -/
def ddim_step (xt x0 : List (List ℝ)) (alphas : ℝ × ℝ) (noise : Option ℝ)
    (ε : List (List ℝ)) : Except String (List (List ℝ)) :=
  match noise with
  | none => Except.error "TypeError: unsupported operand for * between float and NoneType"
  | some ns =>
    let sigma := ddpm_sigma alphas.1 alphas.2 * ns
    let eps := sdiv (matSub xt (smul (Real.sqrt alphas.1) x0)) (Real.sqrt (1 - alphas.1))
    Except.ok (matAdd (matAdd (smul (Real.sqrt alphas.2) x0)
      (smul (Real.sqrt (1 - alphas.2 - sigma ^ 2)) eps)) (smul sigma ε))

/-- The reverse step exactly as the specification words it (section 4.1):
`eps = (xt − sqrt(alpha)·x0) / sqrt(1 − alpha)`,
`sigma = noise_scale · sqrt((1−alpha_past)/(1−alpha) · (1 − alpha/alpha_past))`,
`x_next = sqrt(alpha_past)·x0 + sqrt(1 − alpha_past − sigma²)·eps + sigma·ε`,
stated per element. -/
def ddim_step_spec (xt x0 ε : List (List ℝ)) (α αp ns : ℝ) : List (List ℝ) :=
  mzip3 (fun xte x0e εe =>
    Real.sqrt αp * x0e +
      Real.sqrt (1 - αp - (ns * Real.sqrt ((1 - αp) / (1 - α) * (1 - α / αp))) ^ 2) *
        ((xte - Real.sqrt α * x0e) / Real.sqrt (1 - α)) +
      ns * Real.sqrt ((1 - αp) / (1 - α) * (1 - α / αp)) * εe) xt x0 ε

/-- State of a `BayesianEstimator`: population `x`, its `fitness`, the
schedule value `alpha`, the density method string and the bandwidth `h`. -/
structure BayesianEstimator where
  x : List (List ℝ)
  fitness : List ℝ
  alpha : ℝ
  density_method : String
  h : ℝ

/-- `BayesianEstimator.__init__`: stores the fields and then raises
NotImplementedError unless the density method is in the list `['uniform']`.
The Python defaults are `density='uniform'`, `h=0.1`. -/
def mkEstimator (x : List (List ℝ)) (fitness : List ℝ) (alpha : ℝ)
    (density : String) (h : ℝ) : Except String BayesianEstimator :=
  if density ∈ ["uniform"] then Except.ok ⟨x, fitness, alpha, density, h⟩
  else Except.error "NotImplementedError: density estimator is not implemented."

/-- `BayesianEstimator.append`: concatenates the other estimator data onto
this one (`torch.cat(..., dim=0)` on rows) and leaves the other fields. -/
def append (e other : BayesianEstimator) : BayesianEstimator :=
  { e with x := e.x ++ other.x, fitness := e.fitness ++ other.fitness }

/-- `BayesianEstimator.density`: for the uniform method,
`torch.ones(x.shape[0]) / x.shape[0]`, a weight `1/M` per query row.  For any
other method the Python body falls through returning `None`, embedded as
`none` (unreachable through the constructor). -/
def density (e : BayesianEstimator) (x : List (List ℝ)) : Option (List ℝ) :=
  if e.density_method = "uniform" then
    some (List.replicate x.length ((1 : ℝ) / (x.length : ℝ)))
  else none

/-- Squared Euclidean length of a row. -/
def sqNorm (v : List ℝ) : ℝ := (v.map (fun t => t ^ 2)).sum

/-- `BayesianEstimator.norm` applied to one row of its argument: absolute
value of the single entry when the last dimension is 1 (the torch.abs fast
path of the source), else the Euclidean norm `torch.norm(·, dim=-1)`. -/
def norm (v : List ℝ) : ℝ :=
  if v.length = 1 then |v.headD 0| else Real.sqrt (sqNorm v)

/-- `BayesianEstimator.gaussian_prob(x, mu, sigma)`: for each row `mu_i`,
`exp(-(dist_i ** 2) / (2 * sigma ** 2))` with `dist_i = norm(x - mu_i)`
(the subtraction broadcasts the single query row over the rows of `mu`). -/
def gaussian_prob (x : List ℝ) (mu : List (List ℝ)) (sigma : ℝ) : List ℝ :=
  mu.map (fun mui => Real.exp (-(norm (vSub x mui)) ^ 2 / (2 * sigma ^ 2)))

/-- The importance-weight vector `prob` of `BayesianEstimator._estimate`:
`(fitness + 1e-9) * (p_diffusion + 1e-9) / (p_x_t + 1e-9)` where
`p_diffusion = gaussian_prob(x_t, x * alpha**0.5, (1-alpha)**0.5)`. -/
def probVec (e : BayesianEstimator) (x_t : List ℝ) (p_x_t : ℝ) : List ℝ :=
  List.zipWith (fun f p => (f + 1 / 10 ^ 9) * (p + 1 / 10 ^ 9) / (p_x_t + 1 / 10 ^ 9))
    e.fitness
    (gaussian_prob x_t (e.x.map (List.map (fun v => v * Real.sqrt e.alpha)))
      (Real.sqrt (1 - e.alpha)))

/-- `BayesianEstimator._estimate(x_t, p_x_t)` for one query row:
`torch.sum(prob.unsqueeze(1) * self.x, dim=0) / (torch.sum(prob) + 1e-9)`. -/
def _estimate (e : BayesianEstimator) (x_t : List ℝ) (p_x_t : ℝ) : List ℝ :=
  (msum0 (List.zipWith (fun p xi => xi.map (fun v => p * v)) (probVec e x_t p_x_t) e.x)).map
    (fun v => v / ((probVec e x_t p_x_t).sum + 1 / 10 ^ 9))

/-- `BayesianEstimator.estimate(x_t)`: computes the density weights, then
`torch.vmap(self._estimate, (0, 0))(x_t, p_x_t)` maps `_estimate` over the
query rows paired with their density weights.  A `None` density (non-uniform
method, unreachable through the constructor) would crash the vmap, embedded
as `none`. -/
def estimate (e : BayesianEstimator) (x_t : List (List ℝ)) : Option (List (List ℝ)) :=
  (density e x_t).map (fun p => List.zipWith (fun q pj => _estimate e q pj) x_t p)

/-- `BayesianEstimator.__call__` just delegates to `estimate`. -/
def call (e : BayesianEstimator) (x_t : List (List ℝ)) : Option (List (List ℝ)) :=
  estimate e x_t

/-- State-passing form of `density`: the Python body assigns no attribute of
`self`, so the post-state is the input state. -/
def densityS (e : BayesianEstimator) (x : List (List ℝ)) :
    Option (List ℝ) × BayesianEstimator := (density e x, e)

/-- State-passing form of `estimate`: the Python body assigns no attribute of
`self`, so the post-state is the input state. -/
def estimateS (e : BayesianEstimator) (x_t : List (List ℝ)) :
    Option (List (List ℝ)) × BayesianEstimator := (estimate e x_t, e)

/-- State-passing form of `__call__`. -/
def callS (e : BayesianEstimator) (x_t : List (List ℝ)) :
    Option (List (List ℝ)) × BayesianEstimator := (call e x_t, e)

/-- The per-sample importance weight exactly as the specification words it:
`(fitness[i] + ε) · (exp(−‖x_t[j] − sqrt(alpha)·x[i]‖² / (2·(1−alpha))) + ε) / (d_j + ε)`
with `ε = 1e-9` and the uniform density weight `d_j = 1/M`. -/
def specW (e : BayesianEstimator) (M : ℕ) (q : List ℝ) : List ℝ :=
  List.zipWith (fun fi xi =>
    (fi + 1 / 10 ^ 9) *
      (Real.exp (-(sqNorm (vSub q (xi.map (fun v => Real.sqrt e.alpha * v)))) /
          (2 * (1 - e.alpha))) + 1 / 10 ^ 9) /
      (1 / (M : ℝ) + 1 / 10 ^ 9)) e.fitness e.x

/-- The estimator output exactly as the specification words it:
`x0_est[j] = Σ_i w_i·x[i] / (Σ_i w_i + ε)` with the weights `specW`. -/
def estimate_spec (e : BayesianEstimator) (x_t : List (List ℝ)) : List (List ℝ) :=
  x_t.map (fun q =>
    (msum0 (List.zipWith (fun wi xi => xi.map (fun v => wi * v)) (specW e x_t.length q) e.x)).map
      (fun v => v / ((specW e x_t.length q).sum + 1 / 10 ^ 9)))

/-- State of a `BayesianGenerator`. -/
structure BayesianGenerator where
  x : List (List ℝ)
  fitness : List ℝ
  elite_strategy : Bool
  alpha : ℝ
  alpha_past : ℝ
  estimator : BayesianEstimator

/-- `BayesianGenerator.__init__`: unpacks `alpha` into `(alpha, alpha_past)`
and builds the owned estimator from `(x, fitness, alpha)`; the estimator
constructor may raise. -/
def mkGenerator (x : List (List ℝ)) (fitness : List ℝ) (alpha : ℝ × ℝ)
    (density : String) (h : ℝ) (elite_strategy : Bool) :
    Except String BayesianGenerator :=
  (mkEstimator x fitness alpha.1 density h).map
    (fun est => ⟨x, fitness, elite_strategy, alpha.1, alpha.2, est⟩)

/-- `BayesianGenerator.generate(x, noise, elite_rate, return_x0)`.
The `normalize` function is imported from `utils.corrector`, which is not
among the sources; modelled from the spec: it is the domain-normalization map
applied to every generated population, taken here as an arbitrary function
parameter.  The random draw of the inner `ddim_step` is the explicit `ε`.
The value is `(x_next, some x0_est)` when `return_x0` and `(x_next, none)`
otherwise; crashes of the inner calls are embedded as `none`. -/
def generate (g : BayesianGenerator) (normalize : List (List ℝ) → List (List ℝ))
    (x : List (List ℝ)) (noise : Option ℝ) (elite_rate : ℝ) (return_x0 : Bool)
    (ε : List (List ℝ)) : Option (List (List ℝ) × Option (List (List ℝ))) :=
  match call g.estimator x with
  | none => none
  | some x0_est =>
    match ddim_step x x0_est (g.alpha, g.alpha_past) noise ε with
    | Except.error _ => none
    | Except.ok xn =>
      let x_next := normalize xn
      if return_x0 then some (x_next, some x0_est) else some (x_next, none)

/-- A concrete estimator used by the witnesses: population `[[0],[1]]`,
fitness `[1, 0]`, alpha `1/2`, uniform density, bandwidth `1/10`. -/
def E0 : BayesianEstimator :=
  ⟨[[(0 : ℝ)], [(1 : ℝ)]], [(1 : ℝ), (0 : ℝ)], 1 / 2, "uniform", 1 / 10⟩

end

/-- C1 device: calling `ddim_step` with `noise` left at its default `None`
always raises the TypeError from `ddpm_sigma(alphat, alphatp) * None`; the
`if sigma is None` fallback of the source is dead code, so the function never
returns the unit-scale ancestral step the spec promises. -/
theorem ddim_step_none_raises (xt x0 : List (List ℝ)) (alphas : ℝ × ℝ)
    (ε : List (List ℝ)) :
    ddim_step xt x0 alphas none ε =
      Except.error "TypeError: unsupported operand for * between float and NoneType" := rfl

/-- C8: construction succeeds exactly for the uniform density method; any
other method makes `BayesianEstimator.__init__` raise NotImplementedError at
construction time, before any query is made. -/
theorem mkEstimator_ok_iff (x : List (List ℝ)) (fitness : List ℝ) (alpha : ℝ)
    (density : String) (h : ℝ) :
    (∃ e, mkEstimator x fitness alpha density h = Except.ok e) ↔ density = "uniform" := by
  unfold mkEstimator
  rcases eq_or_ne density "uniform" with hd | hd
  · subst hd; simp
  · simp [hd]

/-- C9: estimator state is modified only by `append`, which concatenates the
populations and the fitness vectors and keeps every other field, preserving
the equal-length invariant; `density`, `estimate` and `__call__` leave the
whole state unchanged for every input. -/
theorem estimator_frame (e other : BayesianEstimator)
    (h1 : e.x.length = e.fitness.length)
    (h2 : other.x.length = other.fitness.length) (q : List (List ℝ)) :
    (append e other).x = e.x ++ other.x ∧
    (append e other).fitness = e.fitness ++ other.fitness ∧
    (append e other).alpha = e.alpha ∧
    (append e other).density_method = e.density_method ∧
    (append e other).h = e.h ∧
    (append e other).x.length = (append e other).fitness.length ∧
    (estimateS e q).2 = e ∧ (densityS e q).2 = e ∧ (callS e q).2 = e := by
  refine ⟨rfl, rfl, rfl, rfl, rfl, ?_, rfl, rfl, rfl⟩
  simp [append, h1, h2]

/-- C9 witness at a concrete estimator, query `[[1/4]]`. -/
theorem estimator_frame_witness :
    E0.x.length = E0.fitness.length ∧
      ((append E0 E0).x = E0.x ++ E0.x ∧
        (append E0 E0).fitness = E0.fitness ++ E0.fitness ∧
        (append E0 E0).alpha = E0.alpha ∧
        (append E0 E0).density_method = E0.density_method ∧
        (append E0 E0).h = E0.h ∧
        (append E0 E0).x.length = (append E0 E0).fitness.length ∧
        (estimateS E0 [[(1 : ℝ) / 4]]).2 = E0 ∧
        (densityS E0 [[(1 : ℝ) / 4]]).2 = E0 ∧
        (callS E0 [[(1 : ℝ) / 4]]).2 = E0) :=
  ⟨rfl, estimator_frame E0 E0 rfl rfl [[(1 : ℝ) / 4]]⟩

/-- C10: `BayesianGenerator.generate` reads neither `elite_rate` nor the
stored `elite_strategy` flag: holding everything else (including the random
draw) fixed, any two values of either parameter give the identical result,
both for a directly assembled generator state and through the constructor. -/
theorem generate_ignores_elite (x : List (List ℝ)) (fitness : List ℝ)
    (es₁ es₂ : Bool) (α αp : ℝ) (est : BayesianEstimator)
    (normalize : List (List ℝ) → List (List ℝ)) (q : List (List ℝ))
    (noise : Option ℝ) (r₁ r₂ : ℝ) (b : Bool) (ε : List (List ℝ))
    (d : String) (hh : ℝ) :
    generate ⟨x, fitness, es₁, α, αp, est⟩ normalize q noise r₁ b ε =
        generate ⟨x, fitness, es₂, α, αp, est⟩ normalize q noise r₂ b ε ∧
      (mkGenerator x fitness (α, αp) d hh es₁).map
          (fun g => generate g normalize q noise r₁ b ε) =
        (mkGenerator x fitness (α, αp) d hh es₂).map
          (fun g => generate g normalize q noise r₂ b ε) := by
  refine ⟨rfl, ?_⟩
  unfold mkGenerator
  cases mkEstimator x fitness (α, αp).1 d hh with
  | error eMsg => rfl
  | ok est' => rfl

/-- Rows of equal length: the composed tensor expression of `ddim_step` is an
elementwise three-way combination. -/
theorem row_comb (c1 c2 c3 c4 σ : ℝ) :
    ∀ r s t : List ℝ, r.length = s.length → r.length = t.length →
      vAdd (vAdd (s.map (fun v => c1 * v))
          (((vSub r (s.map (fun v => c3 * v))).map (fun v => v / c4)).map (fun v => c2 * v)))
        (t.map (fun v => σ * v)) =
      zip3 (fun a b c => c1 * b + c2 * ((a - c3 * b) / c4) + σ * c) r s t := by
  intro r
  induction r with
  | nil =>
    intro s t hs ht
    have hs0 : s = [] := List.length_eq_zero.mp hs.symm
    have ht0 : t = [] := List.length_eq_zero.mp ht.symm
    subst hs0; subst ht0; rfl
  | cons a rs ih =>
    intro s t hs ht
    cases s with
    | nil => simp at hs
    | cons b ss =>
      cases t with
      | nil => simp at ht
      | cons c ts =>
        simp only [List.map_cons, vSub, vAdd, List.zipWith_cons_cons, zip3]
        refine congrArg₂ List.cons rfl ?_
        have htl := ih ss ts (by simpa using hs) (by simpa using ht)
        simpa [vAdd, vSub] using htl

/-- Tensors of equal shape: the composed tensor expression of `ddim_step` is
an elementwise three-way combination. -/
theorem comb_eq_mzip3 (c1 c2 c3 c4 σ : ℝ) (d : ℕ) :
    ∀ xt x0 ε : List (List ℝ), xt.length = x0.length → xt.length = ε.length →
      (∀ r ∈ xt, r.length = d) → (∀ r ∈ x0, r.length = d) → (∀ r ∈ ε, r.length = d) →
      matAdd (matAdd (smul c1 x0) (smul c2 (sdiv (matSub xt (smul c3 x0)) c4))) (smul σ ε) =
        mzip3 (fun a b c => c1 * b + c2 * ((a - c3 * b) / c4) + σ * c) xt x0 ε := by
  intro xt
  induction xt with
  | nil =>
    intro x0 ε h1 h2 _ _ _
    have hx0 : x0 = [] := List.length_eq_zero.mp h1.symm
    have hε : ε = [] := List.length_eq_zero.mp h2.symm
    subst hx0; subst hε; rfl
  | cons r rs ih =>
    intro x0 ε h1 h2 hr1 hr2 hr3
    cases x0 with
    | nil => simp at h1
    | cons s ss =>
      cases ε with
      | nil => simp at h2
      | cons t ts =>
        simp only [matAdd, matSub, smul, sdiv, List.map_cons, List.zipWith_cons_cons, mzip3]
        refine congrArg₂ List.cons ?_ ?_
        · have hr : r.length = s.length := by
            rw [hr1 r (by simp), hr2 s (by simp)]
          have ht : r.length = t.length := by
            rw [hr1 r (by simp), hr3 t (by simp)]
          simpa [matAdd, matSub, smul, sdiv, vAdd, vSub] using row_comb c1 c2 c3 c4 σ r s t hr ht
        · exact ih ss ts (by simpa using h1) (by simpa using h2)
            (fun u hu => hr1 u (by simp [hu])) (fun u hu => hr2 u (by simp [hu]))
            (fun u hu => hr3 u (by simp [hu]))

/-- `ddim_step` with a supplied noise scale, written as one elementwise
three-way combination of `xt`, `x0` and the random draw. -/
theorem ddim_step_some_eq (α αp ns : ℝ) (d : ℕ) (xt x0 ε : List (List ℝ))
    (h1 : xt.length = x0.length) (h2 : xt.length = ε.length)
    (hr1 : ∀ r ∈ xt, r.length = d) (hr2 : ∀ r ∈ x0, r.length = d)
    (hr3 : ∀ r ∈ ε, r.length = d) :
    ddim_step xt x0 (α, αp) (some ns) ε =
      Except.ok (mzip3 (fun a b c =>
        Real.sqrt αp * b +
          Real.sqrt (1 - αp - (ddpm_sigma α αp * ns) ^ 2) *
            ((a - Real.sqrt α * b) / Real.sqrt (1 - α)) +
          ddpm_sigma α αp * ns * c) xt x0 ε) := by
  show Except.ok _ = _
  exact congrArg Except.ok
    (comb_eq_mzip3 (Real.sqrt αp) (Real.sqrt (1 - αp - (ddpm_sigma α αp * ns) ^ 2))
      (Real.sqrt α) (Real.sqrt (1 - α)) (ddpm_sigma α αp * ns) d xt x0 ε h1 h2 hr1 hr2 hr3)

/-- Pointwise congruence for `zip3`. -/
theorem zip3_congr (f g : ℝ → ℝ → ℝ → ℝ) (h : ∀ a b c, f a b c = g a b c) :
    ∀ r s t : List ℝ, zip3 f r s t = zip3 g r s t := by
  intro r
  induction r with
  | nil => intro s t; rfl
  | cons a rs ih =>
    intro s t
    cases s with
    | nil => rfl
    | cons b ss =>
      cases t with
      | nil => rfl
      | cons c ts => simp only [zip3]; exact congrArg₂ List.cons (h a b c) (ih ss ts)

/-- Pointwise congruence for `mzip3`. -/
theorem mzip3_congr (f g : ℝ → ℝ → ℝ → ℝ) (h : ∀ a b c, f a b c = g a b c) :
    ∀ xt x0 ε : List (List ℝ), mzip3 f xt x0 ε = mzip3 g xt x0 ε := by
  intro xt
  induction xt with
  | nil => intro x0 ε; rfl
  | cons r rs ih =>
    intro x0 ε
    cases x0 with
    | nil => rfl
    | cons s ss =>
      cases ε with
      | nil => rfl
      | cons t ts =>
        simp only [mzip3]
        exact congrArg₂ List.cons (zip3_congr f g h r s t) (ih ss ts)

/-- Projecting on the first row list. -/
theorem zip3_fst : ∀ r s t : List ℝ, r.length = s.length → r.length = t.length →
    zip3 (fun a _ _ => a) r s t = r := by
  intro r
  induction r with
  | nil => intro s t _ _; rfl
  | cons a rs ih =>
    intro s t hs ht
    cases s with
    | nil => simp at hs
    | cons b ss =>
      cases t with
      | nil => simp at ht
      | cons c ts =>
        simp only [zip3]
        exact congrArg₂ List.cons rfl (ih ss ts (by simpa using hs) (by simpa using ht))

/-- Projecting on the first tensor. -/
theorem mzip3_fst (d : ℕ) : ∀ xt x0 ε : List (List ℝ),
    xt.length = x0.length → xt.length = ε.length →
    (∀ r ∈ xt, r.length = d) → (∀ r ∈ x0, r.length = d) → (∀ r ∈ ε, r.length = d) →
    mzip3 (fun a _ _ => a) xt x0 ε = xt := by
  intro xt
  induction xt with
  | nil => intro x0 ε _ _ _ _ _; rfl
  | cons r rs ih =>
    intro x0 ε h1 h2 hr1 hr2 hr3
    cases x0 with
    | nil => simp at h1
    | cons s ss =>
      cases ε with
      | nil => simp at h2
      | cons t ts =>
        simp only [mzip3]
        refine congrArg₂ List.cons ?_ ?_
        · exact zip3_fst r s t (by rw [hr1 r (by simp), hr2 s (by simp)])
            (by rw [hr1 r (by simp), hr3 t (by simp)])
        · exact ih ss ts (by simpa using h1) (by simpa using h2)
            (fun u hu => hr1 u (by simp [hu])) (fun u hu => hr2 u (by simp [hu]))
            (fun u hu => hr3 u (by simp [hu]))

/-- A combination ignoring its third argument only depends on the shape of
the third row. -/
theorem zip3_ignore (F : ℝ → ℝ → ℝ) : ∀ r s t t' : List ℝ, t.length = t'.length →
    zip3 (fun a b _ => F a b) r s t = zip3 (fun a b _ => F a b) r s t' := by
  intro r
  induction r with
  | nil => intro s t t' _; rfl
  | cons a rs ih =>
    intro s t t' h
    cases s with
    | nil => rfl
    | cons b ss =>
      cases t with
      | nil =>
        cases t' with
        | nil => rfl
        | cons c' ts' => simp at h
      | cons c ts =>
        cases t' with
        | nil => simp at h
        | cons c' ts' =>
          simp only [zip3]
          exact congrArg₂ List.cons rfl (ih ss ts ts' (by simpa using h))

/-- A combination ignoring its third argument only depends on the shape of
the third tensor. -/
theorem mzip3_ignore (F : ℝ → ℝ → ℝ) (d : ℕ) :
    ∀ xt x0 t t' : List (List ℝ), t.length = t'.length →
      (∀ r ∈ t, r.length = d) → (∀ r ∈ t', r.length = d) →
      mzip3 (fun a b _ => F a b) xt x0 t = mzip3 (fun a b _ => F a b) xt x0 t' := by
  intro xt
  induction xt with
  | nil => intro x0 t t' _ _ _; rfl
  | cons r rs ih =>
    intro x0 t t' hlen h1 h2
    cases x0 with
    | nil => rfl
    | cons s ss =>
      cases t with
      | nil =>
        cases t' with
        | nil => rfl
        | cons u' us' => simp at hlen
      | cons u us =>
        cases t' with
        | nil => simp at hlen
        | cons u' us' =>
          simp only [mzip3]
          refine congrArg₂ List.cons ?_ ?_
          · exact zip3_ignore F r s u u' (by rw [h1 u (by simp), h2 u' (by simp)])
          · exact ih ss us us' (by simpa using hlen)
              (fun v hv => h1 v (by simp [hv])) (fun v hv => h2 v (by simp [hv]))

/-- Length of an elementwise three-way row combination. -/
theorem zip3_length (f : ℝ → ℝ → ℝ → ℝ) : ∀ r s t : List ℝ,
    r.length = s.length → r.length = t.length → (zip3 f r s t).length = r.length := by
  intro r
  induction r with
  | nil => intro s t _ _; rfl
  | cons a rs ih =>
    intro s t hs ht
    cases s with
    | nil => simp at hs
    | cons b ss =>
      cases t with
      | nil => simp at ht
      | cons c ts =>
        simpa [zip3] using ih ss ts (by simpa using hs) (by simpa using ht)

/-- Shape of an elementwise three-way combination. -/
theorem mzip3_shape (f : ℝ → ℝ → ℝ → ℝ) (d : ℕ) :
    ∀ xt x0 ε : List (List ℝ), xt.length = x0.length → xt.length = ε.length →
      (∀ r ∈ xt, r.length = d) → (∀ r ∈ x0, r.length = d) → (∀ r ∈ ε, r.length = d) →
      (mzip3 f xt x0 ε).length = xt.length ∧ ∀ r ∈ mzip3 f xt x0 ε, r.length = d := by
  intro xt
  induction xt with
  | nil => intro x0 ε _ _ _ _ _; exact ⟨rfl, by simp [mzip3]⟩
  | cons r rs ih =>
    intro x0 ε h1 h2 hr1 hr2 hr3
    cases x0 with
    | nil => simp at h1
    | cons s ss =>
      cases ε with
      | nil => simp at h2
      | cons t ts =>
        have hz : (zip3 f r s t).length = d := by
          have := zip3_length f r s t (by rw [hr1 r (by simp), hr2 s (by simp)])
            (by rw [hr1 r (by simp), hr3 t (by simp)])
          rw [this, hr1 r (by simp)]
        obtain ⟨ihl, ihr⟩ := ih ss ts (by simpa using h1) (by simpa using h2)
          (fun u hu => hr1 u (by simp [hu])) (fun u hu => hr2 u (by simp [hu]))
          (fun u hu => hr3 u (by simp [hu]))
        refine ⟨by simpa [mzip3] using ihl, ?_⟩
        intro u hu
        rcases (List.mem_cons).mp (by simpa [mzip3] using hu) with h | h
        · rw [h]; exact hz
        · exact ihr u h

/-- C3: with a supplied noise scale, `ddim_step` returns exactly the update
the spec states, elementwise over the batch, with
`sigma = noise_scale · sqrt((1−alpha_past)/(1−alpha) · (1 − alpha/alpha_past))`,
`eps = (xt − sqrt(alpha)·x0)/sqrt(1 − alpha)`, and `x_next = sqrt(alpha_past)·x0
+ sqrt(1 − alpha_past − sigma²)·eps + sigma·ε`; the output again has shape
M×D. -/
theorem ddim_step_formula (m d : ℕ) (α αp ns : ℝ) (xt x0 ε : List (List ℝ))
    (hα : 0 < α ∧ α < 1) (hαp : 0 < αp ∧ αp ≤ 1) (hns : 0 ≤ ns)
    (hxt : IsShape xt m d) (hx0 : IsShape x0 m d) (hε : IsShape ε m d) :
    ddim_step xt x0 (α, αp) (some ns) ε = Except.ok (ddim_step_spec xt x0 ε α αp ns) ∧
      IsShape (ddim_step_spec xt x0 ε α αp ns) m d := by
  obtain ⟨hxl, hxr⟩ := hxt
  obtain ⟨h0l, h0r⟩ := hx0
  obtain ⟨hεl, hεr⟩ := hε
  have hpt : ∀ a b c : ℝ,
      Real.sqrt αp * b +
          Real.sqrt (1 - αp - (ddpm_sigma α αp * ns) ^ 2) *
            ((a - Real.sqrt α * b) / Real.sqrt (1 - α)) +
          ddpm_sigma α αp * ns * c =
        Real.sqrt αp * b +
          Real.sqrt (1 - αp - (ns * Real.sqrt ((1 - αp) / (1 - α) * (1 - α / αp))) ^ 2) *
            ((a - Real.sqrt α * b) / Real.sqrt (1 - α)) +
          ns * Real.sqrt ((1 - αp) / (1 - α) * (1 - α / αp)) * c := by
    intro a b c
    simp only [ddpm_sigma]
    rw [mul_comm (Real.sqrt ((1 - αp) / (1 - α) * (1 - α / αp))) ns]
  constructor
  · rw [ddim_step_some_eq α αp ns d xt x0 ε (hxl.trans h0l.symm) (hxl.trans hεl.symm)
      hxr h0r hεr]
    exact congrArg Except.ok (mzip3_congr _ _ hpt xt x0 ε)
  · have := mzip3_shape (fun xte x0e εe =>
        Real.sqrt αp * x0e +
          Real.sqrt (1 - αp - (ns * Real.sqrt ((1 - αp) / (1 - α) * (1 - α / αp))) ^ 2) *
            ((xte - Real.sqrt α * x0e) / Real.sqrt (1 - α)) +
          ns * Real.sqrt ((1 - αp) / (1 - α) * (1 - α / αp)) * εe) d xt x0 ε
      (hxl.trans h0l.symm) (hxl.trans hεl.symm) hxr h0r hεr
    exact ⟨by rw [ddim_step_spec, this.1, hxl], fun r hr => this.2 r hr⟩

/-- C3 witness: all hypotheses hold at `alpha = alpha_past = 1/2`,
`noise_scale = 0` and 1×1 tensors, and the theorem applies. -/
theorem ddim_step_formula_witness :
    ((0 : ℝ) < 1 / 2 ∧ (1 : ℝ) / 2 < 1) ∧ ((0 : ℝ) < 1 / 2 ∧ (1 : ℝ) / 2 ≤ 1) ∧
      (0 : ℝ) ≤ 0 ∧ IsShape [[(1 : ℝ)]] 1 1 ∧ IsShape [[(0 : ℝ)]] 1 1 ∧
      (ddim_step [[(1 : ℝ)]] [[(0 : ℝ)]] (1 / 2, 1 / 2) (some 0) [[(0 : ℝ)]] =
          Except.ok (ddim_step_spec [[(1 : ℝ)]] [[(0 : ℝ)]] [[(0 : ℝ)]] (1 / 2) (1 / 2) 0) ∧
        IsShape (ddim_step_spec [[(1 : ℝ)]] [[(0 : ℝ)]] [[(0 : ℝ)]] (1 / 2) (1 / 2) 0) 1 1) :=
  ⟨⟨by norm_num, by norm_num⟩, ⟨by norm_num, by norm_num⟩, le_refl 0, by decide, by decide,
    ddim_step_formula 1 1 (1 / 2) (1 / 2) 0 [[(1 : ℝ)]] [[(0 : ℝ)]] [[(0 : ℝ)]]
      ⟨by norm_num, by norm_num⟩ ⟨by norm_num, by norm_num⟩ (le_refl 0)
      (by decide) (by decide) (by decide)⟩

/-- C5: when the schedule makes no progress (`alpha_past = alpha`) and the
noise scale is zero, the reverse step returns `xt` unchanged, exactly, in
real arithmetic. -/
theorem ddim_step_noop (m d : ℕ) (α : ℝ) (xt x0 ε : List (List ℝ))
    (hα : 0 < α ∧ α < 1) (hxt : IsShape xt m d) (hx0 : IsShape x0 m d)
    (hε : IsShape ε m d) :
    ddim_step xt x0 (α, α) (some 0) ε = Except.ok xt := by
  obtain ⟨hxl, hxr⟩ := hxt
  obtain ⟨h0l, h0r⟩ := hx0
  obtain ⟨hεl, hεr⟩ := hε
  have hs : Real.sqrt (1 - α) ≠ 0 :=
    ne_of_gt (Real.sqrt_pos.mpr (by linarith [hα.2]))
  rw [ddim_step_some_eq α α 0 d xt x0 ε (hxl.trans h0l.symm) (hxl.trans hεl.symm)
    hxr h0r hεr]
  refine congrArg Except.ok ?_
  have hpt : ∀ a b c : ℝ,
      Real.sqrt α * b +
          Real.sqrt (1 - α - (ddpm_sigma α α * 0) ^ 2) *
            ((a - Real.sqrt α * b) / Real.sqrt (1 - α)) +
          ddpm_sigma α α * 0 * c = (fun a _ _ => a) a b c := by
    intro a b c
    simp only [mul_zero, zero_mul, add_zero]
    norm_num
    rw [mul_comm (Real.sqrt (1 - α)) ((a - Real.sqrt α * b) / Real.sqrt (1 - α)),
      div_mul_cancel₀ _ hs]
    ring
  rw [mzip3_congr _ _ hpt xt x0 ε]
  exact mzip3_fst d xt x0 ε (hxl.trans h0l.symm) (hxl.trans hεl.symm) hxr h0r hεr

/-- C5 witness: the identity-step boundary case of the spec, at
`alpha = alpha_past = 1/2`, `noise_scale = 0`, `xt = [[1.0]]`, `x0 = [[0.0]]`. -/
theorem ddim_step_noop_witness :
    ((0 : ℝ) < 1 / 2 ∧ (1 : ℝ) / 2 < 1) ∧ IsShape [[(1 : ℝ)]] 1 1 ∧
      ddim_step [[(1 : ℝ)]] [[(0 : ℝ)]] (1 / 2, 1 / 2) (some 0) [[(0 : ℝ)]] =
        Except.ok [[(1 : ℝ)]] :=
  ⟨⟨by norm_num, by norm_num⟩, by decide,
    ddim_step_noop 1 1 (1 / 2) [[(1 : ℝ)]] [[(0 : ℝ)]] [[(0 : ℝ)]]
      ⟨by norm_num, by norm_num⟩ (by decide) (by decide) (by decide)⟩

/-- C6: with noise scale zero, the `sigma·ε` term vanishes whatever the
random draw is, so two calls on identical non-random inputs give identical
outputs. -/
theorem ddim_step_zero_noise_deterministic (m d : ℕ) (α αp : ℝ)
    (xt x0 ε₁ ε₂ : List (List ℝ)) (hα : 0 < α ∧ α < 1) (hαp : 0 < αp ∧ αp ≤ 1)
    (hxt : IsShape xt m d) (hx0 : IsShape x0 m d) (hε₁ : IsShape ε₁ m d)
    (hε₂ : IsShape ε₂ m d) :
    ddim_step xt x0 (α, αp) (some 0) ε₁ = ddim_step xt x0 (α, αp) (some 0) ε₂ := by
  obtain ⟨hxl, hxr⟩ := hxt
  obtain ⟨h0l, h0r⟩ := hx0
  obtain ⟨h1l, h1r⟩ := hε₁
  obtain ⟨h2l, h2r⟩ := hε₂
  rw [ddim_step_some_eq α αp 0 d xt x0 ε₁ (hxl.trans h0l.symm) (hxl.trans h1l.symm)
    hxr h0r h1r]
  rw [ddim_step_some_eq α αp 0 d xt x0 ε₂ (hxl.trans h0l.symm) (hxl.trans h2l.symm)
    hxr h0r h2r]
  refine congrArg Except.ok ?_
  have hpt : ∀ a b c : ℝ,
      Real.sqrt αp * b +
          Real.sqrt (1 - αp - (ddpm_sigma α αp * 0) ^ 2) *
            ((a - Real.sqrt α * b) / Real.sqrt (1 - α)) +
          ddpm_sigma α αp * 0 * c =
        (fun a b (_ : ℝ) =>
          Real.sqrt αp * b +
            Real.sqrt (1 - αp - (ddpm_sigma α αp * 0) ^ 2) *
              ((a - Real.sqrt α * b) / Real.sqrt (1 - α))) a b c := by
    intro a b c
    simp only [mul_zero, zero_mul, add_zero]
  rw [mzip3_congr _ _ hpt xt x0 ε₁, mzip3_congr _ _ hpt xt x0 ε₂]
  exact mzip3_ignore _ d xt x0 ε₁ ε₂ (h1l.trans h2l.symm) h1r h2r

/-- C6 witness: two different random draws, `[[3]]` and `[[5]]`, give the
same output of the zero-noise step. -/
theorem ddim_step_zero_noise_deterministic_witness :
    ((0 : ℝ) < 1 / 2 ∧ (1 : ℝ) / 2 < 1) ∧ ((0 : ℝ) < 3 / 4 ∧ (3 : ℝ) / 4 ≤ 1) ∧
      IsShape [[(3 : ℝ)]] 1 1 ∧ IsShape [[(5 : ℝ)]] 1 1 ∧
      ddim_step [[(1 : ℝ)]] [[(0 : ℝ)]] (1 / 2, 3 / 4) (some 0) [[(3 : ℝ)]] =
        ddim_step [[(1 : ℝ)]] [[(0 : ℝ)]] (1 / 2, 3 / 4) (some 0) [[(5 : ℝ)]] :=
  ⟨⟨by norm_num, by norm_num⟩, ⟨by norm_num, by norm_num⟩, by decide, by decide,
    ddim_step_zero_noise_deterministic 1 1 (1 / 2) (3 / 4) [[(1 : ℝ)]] [[(0 : ℝ)]]
      [[(3 : ℝ)]] [[(5 : ℝ)]] ⟨by norm_num, by norm_num⟩ ⟨by norm_num, by norm_num⟩
      (by decide) (by decide) (by decide) (by decide)⟩

/-- A sum of squares is nonnegative. -/
theorem sqNorm_nonneg (v : List ℝ) : 0 ≤ sqNorm v := by
  apply List.sum_nonneg
  intro a ha
  obtain ⟨b, _, rfl⟩ := List.mem_map.mp ha
  positivity

/-- The squared row norm equals the sum of squares in both branches of the
source (the one-dimensional torch.abs fast path included). -/
theorem norm_sq (v : List ℝ) : norm v ^ 2 = sqNorm v := by
  unfold norm
  split
  · rename_i h1
    obtain ⟨a, ha⟩ := List.length_eq_one.mp h1
    subst ha
    simp [sqNorm, sq_abs]
  · exact Real.sq_sqrt (sqNorm_nonneg v)

/-- Zipping with a constant list of matching length is a map. -/
theorem zipWith_replicate_right {α β γ : Type} (f : α → β → γ) (c : β) :
    ∀ l : List α, List.zipWith f l (List.replicate l.length c) = l.map (fun x => f x c) := by
  intro l
  induction l with
  | nil => rfl
  | cons a l ih =>
    simp only [List.length_cons, List.replicate_succ, List.zipWith_cons_cons, List.map_cons]
    rw [ih]

/-- With the uniform density method, `estimate` maps `_estimate` with the
constant density weight `1/M` over the query rows. -/
theorem estimate_uniform (e : BayesianEstimator) (hm : e.density_method = "uniform")
    (x_t : List (List ℝ)) :
    estimate e x_t = some (x_t.map (fun q => _estimate e q (1 / (x_t.length : ℝ)))) := by
  simp [estimate, density, hm, zipWith_replicate_right]

/-- The importance weights computed by the code equal the weights the spec
words (sum-of-squares distance, denominator `2·(1−alpha)`, density `1/M`). -/
theorem probVec_eq_specW (e : BayesianEstimator) (hα : e.alpha ≤ 1) (M : ℕ) (q : List ℝ) :
    probVec e q (1 / (M : ℝ)) = specW e M q := by
  unfold probVec specW gaussian_prob
  rw [List.map_map, List.zipWith_map_right]
  congr 1
  funext fi xi
  have h1 : (xi.map fun v => v * Real.sqrt e.alpha) = xi.map fun v => Real.sqrt e.alpha * v := by
    simp [mul_comm]
  have h2 : Real.sqrt (1 - e.alpha) ^ 2 = 1 - e.alpha := Real.sq_sqrt (by linarith)
  simp only [Function.comp]
  rw [h1, norm_sq, h2]

/-- C2: for a uniform-density estimator, `estimate` returns for every query
row exactly the fitness- and likelihood-weighted centroid the spec states:
`x0_est[j] = Σ_i w_i·x[i] / (Σ_i w_i + 1e-9)` with
`w_i = (fitness[i]+1e-9)·(exp(−‖x_t[j]−sqrt(alpha)·x[i]‖²/(2(1−alpha)))+1e-9)/(d_j+1e-9)`
and `d_j = 1/M`. -/
theorem estimate_matches_spec (e : BayesianEstimator) (hm : e.density_method = "uniform")
    (hα : 0 < e.alpha ∧ e.alpha < 1) (N D M : ℕ) (hx : IsShape e.x N D)
    (hf : e.fitness.length = N) (x_t : List (List ℝ)) (hq : IsShape x_t M D) :
    estimate e x_t = some (estimate_spec e x_t) := by
  rw [estimate_uniform e hm]
  simp only [estimate_spec, _estimate]
  refine congrArg some ?_
  congr 1
  funext q
  rw [probVec_eq_specW e (le_of_lt hα.2) x_t.length q]

/-- C2 witness: the concrete estimator `E0` and the query batch `[[1/4]]`. -/
theorem estimate_matches_spec_witness :
    E0.density_method = "uniform" ∧ ((0 : ℝ) < E0.alpha ∧ E0.alpha < 1) ∧
      IsShape E0.x 2 1 ∧ E0.fitness.length = 2 ∧ IsShape [[(1 : ℝ) / 4]] 1 1 ∧
      estimate E0 [[(1 : ℝ) / 4]] = some (estimate_spec E0 [[(1 : ℝ) / 4]]) :=
  ⟨rfl, ⟨by norm_num [E0], by norm_num [E0]⟩, by decide, rfl, by decide,
    estimate_matches_spec E0 rfl ⟨by norm_num [E0], by norm_num [E0]⟩ 2 1 1
      (by decide) rfl [[(1 : ℝ) / 4]] (by decide)⟩

/-- Every entry of `gaussian_prob` is nonnegative (it is an exponential). -/
theorem gaussian_prob_nonneg (x : List ℝ) (mu : List (List ℝ)) (s : ℝ) :
    ∀ p ∈ gaussian_prob x mu s, 0 ≤ p := by
  intro p hp
  obtain ⟨mui, _, rfl⟩ := List.mem_map.mp hp
  exact le_of_lt (Real.exp_pos _)

/-- Entries of the importance-weight vector are nonnegative when fitness and
likelihood entries and the density weight are. -/
theorem zipWith_mem_nonneg (c : ℝ) (hc : 0 ≤ c) :
    ∀ fl pl : List ℝ, (∀ f ∈ fl, 0 ≤ f) → (∀ p ∈ pl, 0 ≤ p) →
      ∀ z ∈ List.zipWith
        (fun f p => (f + 1 / 10 ^ 9) * (p + 1 / 10 ^ 9) / (c + 1 / 10 ^ 9)) fl pl, 0 ≤ z := by
  intro fl
  induction fl with
  | nil => intro pl _ _ z hz; simp at hz
  | cons f fs ih =>
    intro pl hf hp z hz
    cases pl with
    | nil => simp at hz
    | cons p ps =>
      rw [List.zipWith_cons_cons] at hz
      rcases (List.mem_cons).mp hz with h | h
      · subst h
        have hf0 : 0 ≤ f := hf f (by simp)
        have hp0 : 0 ≤ p := hp p (by simp)
        have he : (0 : ℝ) < 1 / 10 ^ 9 := by norm_num
        apply div_nonneg (mul_nonneg (by linarith) (by linarith)) (by linarith)
      · exact ih ps (fun u hu => hf u (by simp [hu])) (fun u hu => hp u (by simp [hu])) z h

/-- Length of the importance-weight vector. -/
theorem probVec_length (e : BayesianEstimator) (q : List ℝ) (p : ℝ) :
    (probVec e q p).length = min e.fitness.length e.x.length := by
  simp [probVec, gaussian_prob]

/-- Rows of the weighted population have the population dimensionality. -/
theorem weighted_row_len (d : ℕ) : ∀ (p : List ℝ) (xl : List (List ℝ)),
    (∀ xi ∈ xl, xi.length = d) →
    ∀ row ∈ List.zipWith (fun c xi => xi.map (fun v => c * v)) p xl, row.length = d := by
  intro p
  induction p with
  | nil => intro xl _ row hr; simp at hr
  | cons c cs ih =>
    intro xl hx row hr
    cases xl with
    | nil => simp at hr
    | cons xi xs =>
      rcases (List.mem_cons).mp (by simpa using hr) with h | h
      · rw [h]; simp [hx xi (by simp)]
      · exact ih xs (fun u hu => hx u (by simp [hu])) row h

/-- A row-wise sum of a nonempty tensor with rows of length `d` is a row of
length `d`. -/
theorem msum0_length (d : ℕ) : ∀ L : List (List ℝ), L ≠ [] →
    (∀ r ∈ L, r.length = d) → (msum0 L).length = d := by
  intro L
  induction L with
  | nil => intro h _; exact absurd rfl h
  | cons r rs ih =>
    intro _ hr
    cases rs with
    | nil => simpa [msum0] using hr r (by simp)
    | cons r2 rs2 =>
      have hm : msum0 (r :: r2 :: rs2) = vAdd r (msum0 (r2 :: rs2)) := rfl
      rw [hm, vAdd, List.length_zipWith, hr r (by simp),
        ih (by simp) (fun s hs => hr s (by simp [hs]))]
      simp

/-- Each per-query origin estimate is a row of the population dimension. -/
theorem _estimate_length (e : BayesianEstimator) (N D : ℕ) (hx : IsShape e.x N D)
    (hf : e.fitness.length = N) (hN : 0 < N) (q : List ℝ) (p : ℝ) :
    (_estimate e q p).length = D := by
  unfold _estimate
  rw [List.length_map]
  have hlen : (List.zipWith (fun c xi => xi.map (fun v => c * v))
      (probVec e q p) e.x).length = N := by
    rw [List.length_zipWith, probVec_length, hf, hx.1]
    simp
  apply msum0_length D
  · exact List.ne_nil_of_length_pos (by rw [hlen]; exact hN)
  · exact weighted_row_len D (probVec e q p) e.x hx.2

/-- C4: on a nonempty uniform-density estimator with nonnegative fitness,
`estimate` always returns a value of shape M×D, and the denominators that the
code divides by — the normalizer `Σ prob + 1e-9` of every query row and the
density term `1/M + 1e-9` — are strictly positive, so no division by zero
occurs even when every fitness, likelihood or density weight is zero (the
real-arithmetic reading of no NaN or infinity). -/
theorem estimate_safe (e : BayesianEstimator) (hm : e.density_method = "uniform")
    (N D M : ℕ) (hx : IsShape e.x N D) (hf : e.fitness.length = N) (hN : 0 < N)
    (hfit : ∀ f ∈ e.fitness, 0 ≤ f) (hα : 0 < e.alpha ∧ e.alpha < 1)
    (x_t : List (List ℝ)) (hq : IsShape x_t M D) :
    ∃ r, estimate e x_t = some r ∧ IsShape r M D ∧
      (∀ q ∈ x_t, 0 < (probVec e q (1 / (x_t.length : ℝ))).sum + 1 / 10 ^ 9) ∧
      0 < 1 / (x_t.length : ℝ) + 1 / 10 ^ 9 := by
  refine ⟨_, estimate_uniform e hm x_t, ⟨?_, ?_⟩, ?_, ?_⟩
  · rw [List.length_map, hq.1]
  · intro r hr
    obtain ⟨q, _, rfl⟩ := List.mem_map.mp hr
    exact _estimate_length e N D hx hf hN q _
  · intro q _
    have hc : (0 : ℝ) ≤ 1 / (x_t.length : ℝ) :=
      div_nonneg zero_le_one (Nat.cast_nonneg _)
    have hsum : 0 ≤ (probVec e q (1 / (x_t.length : ℝ))).sum := by
      apply List.sum_nonneg
      intro z hz
      simp only [probVec] at hz
      exact zipWith_mem_nonneg (1 / (x_t.length : ℝ)) hc e.fitness _ hfit
        (gaussian_prob_nonneg q _ _) z hz
    have he : (0 : ℝ) < 1 / 10 ^ 9 := by norm_num
    linarith
  · have hc : (0 : ℝ) ≤ 1 / (x_t.length : ℝ) :=
      div_nonneg zero_le_one (Nat.cast_nonneg _)
    have he : (0 : ℝ) < 1 / 10 ^ 9 := by norm_num
    linarith

/-- C4 witness: the concrete estimator `E0` (which has a zero fitness entry)
and the query batch `[[1/4]]`. -/
theorem estimate_safe_witness :
    E0.density_method = "uniform" ∧ IsShape E0.x 2 1 ∧ E0.fitness.length = 2 ∧
      0 < 2 ∧ (∀ f ∈ E0.fitness, 0 ≤ f) ∧ ((0 : ℝ) < E0.alpha ∧ E0.alpha < 1) ∧
      IsShape [[(1 : ℝ) / 4]] 1 1 ∧
      (∃ r, estimate E0 [[(1 : ℝ) / 4]] = some r ∧ IsShape r 1 1 ∧
        (∀ q ∈ [[(1 : ℝ) / 4]],
          0 < (probVec E0 q (1 / (([[(1 : ℝ) / 4]] : List (List ℝ)).length : ℝ))).sum + 1 / 10 ^ 9) ∧
        0 < 1 / (([[(1 : ℝ) / 4]] : List (List ℝ)).length : ℝ) + 1 / 10 ^ 9) :=
  ⟨rfl, by decide, rfl, by decide,
    by intro f hf; simp [E0] at hf; rcases hf with rfl | rfl <;> norm_num,
    ⟨by norm_num [E0], by norm_num [E0]⟩, by decide,
    estimate_safe E0 rfl 2 1 1 (by decide) rfl (by decide)
      (by intro f hf; simp [E0] at hf; rcases hf with rfl | rfl <;> norm_num)
      ⟨by norm_num [E0], by norm_num [E0]⟩ [[(1 : ℝ) / 4]] (by decide)⟩

/-- Reading a position of a list built from a function recovers the
function value. -/
theorem getD_ofFn {M : ℕ} (g : Fin M → List ℝ) (i : Fin M) :
    (List.ofFn g).getD i.val [] = g i := by
  rw [List.getD_eq_getElem?_getD, List.getElem?_ofFn]
  simp [List.ofFnNthVal, i.isLt]

/-- With the uniform density method, `estimate` of a batch given by a
function on `Fin M` is the row-wise image of `_estimate` at weight `1/M`. -/
theorem estimate_ofFn (e : BayesianEstimator) (hm : e.density_method = "uniform")
    (M : ℕ) (q : Fin M → List ℝ) :
    estimate e (List.ofFn q) =
      some (List.ofFn (fun i => _estimate e (q i) (1 / (M : ℝ)))) := by
  rw [estimate_uniform e hm, List.map_ofFn, List.length_ofFn]
  rfl

/-- C7: permuting the rows of the query batch permutes the rows of the
result identically — each query row of a uniform-density estimate depends
only on that row and the batch size M. -/
theorem estimate_query_perm (e : BayesianEstimator) (hm : e.density_method = "uniform")
    (M : ℕ) (q : Fin M → List ℝ) (σ : Equiv.Perm (Fin M)) :
    estimate e (List.ofFn (fun i => q (σ i))) =
      (estimate e (List.ofFn q)).map
        (fun L => List.ofFn (fun i => L.getD (σ i).val [])) := by
  rw [estimate_ofFn e hm M (fun i => q (σ i)), estimate_ofFn e hm M q]
  simp only [Option.map_some']
  refine congrArg some (congrArg List.ofFn ?_)
  funext i
  rw [getD_ofFn]

/-- C7 witness: the estimator `E0`, a two-row query batch and the transposing
permutation of its rows. -/
theorem estimate_query_perm_witness :
    E0.density_method = "uniform" ∧
      estimate E0 (List.ofFn (fun i : Fin 2 =>
          (fun j : Fin 2 => [((j : ℕ) : ℝ)]) ((Equiv.swap 0 1) i))) =
        (estimate E0 (List.ofFn (fun j : Fin 2 => [((j : ℕ) : ℝ)]))).map
          (fun L => List.ofFn (fun i : Fin 2 => L.getD ((Equiv.swap 0 1 : Equiv.Perm (Fin 2)) i).val [])) :=
  ⟨rfl, estimate_query_perm E0 rfl 2 (fun j : Fin 2 => [((j : ℕ) : ℝ)]) (Equiv.swap 0 1)⟩

end EDNAG
